import Mathlib

/-!
Verification of the job-lifecycle / progress-streaming engine in
`src/src-tauri/src/lib.rs` (video-toolbox).

Modelling conventions:
* byte streams are modelled as lists of characters (the code decodes with
  `String::from_utf8_lossy`, which is permissive and irrelevant to the
  claims, so lossy decoding is elided);
* the whole-second values extracted by the parsers are `Nat`s; the percent
  arithmetic (Rust `f64`) is modelled over `ℚ`, with Rust's
  `f64::round` (half away from zero; every value involved is nonnegative)
  modelled by Mathlib's `round` (`⌊x + 1/2⌋`); where binary64 rounding
  itself is at issue (`trim_video`'s range clamp), floats are modelled by
  their exact rational values with a representability predicate and a
  correctly-rounded-result relation;
* the post-`wait` completion sequence of each handler is modelled as a
  trace of atomic actions (clear slot field / emit terminal event /
  delete file), in the exact order the handler performs them;
* the filesystem is modelled as the list of existing paths, and
  `std::fs::remove_file` as removal of the path from that list.
-/

/-! ## Stream record splitting

`start_encode` / `extract_audio` / `trim_video` / `video_to_gif` read
ffmpeg stderr with `reader.read_until(b'\r', &mut buf)` and then strip all
trailing `'\r'`/`'\n'` from each chunk (lib.rs:1080-1084 and the three
copies).  `download_video` reads raw chunks and splits the pending buffer
at every `'\r'` **or** `'\n'`, pops the single delimiter, trims the
segment, and skips empty segments; bytes left unterminated at end of
stream are never processed (lib.rs:2281-2303, 2436-2456). -/

/-- Strip all trailing carriage-return / line-feed characters:
`line.trim_end_matches(|c: char| c == '\r' || c == '\n')`. -/
def trimEndRN (l : List Char) : List Char :=
  (l.reverse.dropWhile (fun c => c == '\r' || c == '\n')).reverse

/-- The chunking performed by the `read_until(b'\r')` loop: each chunk ends
at (and includes) a `'\r'`; a final unterminated remainder is still
returned by `read_until` (with `n > 0`) and hence still processed. -/
def splitAfterCR (acc : List Char) : List Char → List (List Char)
  | [] => if acc.isEmpty then [] else [acc.reverse]
  | c :: rest =>
    if c == '\r' then (acc.reverse ++ ['\r']) :: splitAfterCR [] rest
    else splitAfterCR (c :: acc) rest

/-- Record sequence processed by the ffmpeg-based progress loops
(`start_encode` lib.rs:1080-1084, likewise `extract_audio`, `trim_video`,
`video_to_gif`): split after each `'\r'` only, then strip trailing
`'\r'`/`'\n'` from each chunk.  Empty records are not skipped. -/
def ffmpegRecords (s : List Char) : List String :=
  (splitAfterCR [] s).map (fun l => String.mk (trimEndRN l))

/-- ASCII whitespace, standing in for Rust `char::is_whitespace` /
regex `\s` (only ASCII whitespace is relevant to the claims). -/
def isWs (c : Char) : Bool :=
  c == ' ' || c == '\t' || c == '\n' || c == '\r' || c == '\x0b' || c == '\x0c'

/-- Trim whitespace from both ends (Rust `str::trim`). -/
def trimChars (l : List Char) : List Char :=
  ((l.dropWhile isWs).reverse.dropWhile isWs).reverse

/-- The chunking performed by the downloader readers: the pending buffer is
split at every `'\r'` or `'\n'` (the delimiter is popped); data left in the
pending buffer when the stream ends is dropped (the read loop exits on
`n == 0` without flushing `pending`). -/
def splitAnyNL (acc : List Char) : List Char → List (List Char)
  | [] => []
  | c :: rest =>
    if c == '\r' || c == '\n' then acc.reverse :: splitAnyNL [] rest
    else splitAnyNL (c :: acc) rest

/-- Record sequence processed by the `download_video` reader loops
(lib.rs:2292-2303 for stdout, 2447-2456 for stderr): split at either
delimiter, strip trailing CR/LF, trim whitespace, skip empty records. -/
def downloadRecords (s : List Char) : List String :=
  ((splitAnyNL [] s).map (fun l => String.mk (trimChars (trimEndRN l)))).filter
    (fun r => !(r == ""))

/-- Substitution of line-feed delimiters by carriage returns, used to state
that the downloader splitter treats the two delimiters identically. -/
def swapNLtoCR (c : Char) : Char := if c == '\n' then '\r' else c

theorem splitAnyNL_map_swap (s : List Char) :
    ∀ acc, splitAnyNL acc (s.map swapNLtoCR) = splitAnyNL acc s := by
  induction s with
  | nil => intro acc; rfl
  | cons c rest ih =>
    intro acc
    by_cases h : c = '\n'
    · subst h
      simp [swapNLtoCR, splitAnyNL, ih]
    · by_cases h2 : c = '\r'
      · subst h2
        simp [swapNLtoCR, splitAnyNL, ih]
      · simp [swapNLtoCR, splitAnyNL, h, h2, ih]

/-- C1, counterexample.  On the spec's own example stream
`"abc\r123\n456"`, neither family of reader loops produces the record
sequence `["abc", "123", "456"]`: the ffmpeg-based loops split only on
carriage return, and the downloader loops drop the final unterminated
segment. -/
theorem c1_counterexample :
    ffmpegRecords ("abc\r123\n456".data) ≠ ["abc", "123", "456"] ∧
    downloadRecords ("abc\r123\n456".data) ≠ ["abc", "123", "456"] := by
  decide

/-- C1, amended.  Only the downloader readers honor both delimiters, and
they do so interchangeably: replacing every `'\n'` by `'\r'` in a stream
never changes the downloader record sequence.  However, a final
unterminated segment is dropped by the downloader readers, so
`"abc\r123\n456"` yields `["abc", "123"]` there; and the ffmpeg-based
readers split on `'\r'` only, so the same stream yields
`["abc", "123\n456"]` in those loops. -/
theorem c1_amended :
    (∀ s : List Char, downloadRecords (s.map swapNLtoCR) = downloadRecords s) ∧
    ffmpegRecords ("abc\r123\n456".data) = ["abc", "123\n456"] ∧
    downloadRecords ("abc\r123\n456".data) = ["abc", "123"] := by
  refine ⟨fun s => ?_, by decide, by decide⟩
  unfold downloadRecords
  rw [splitAnyNL_map_swap]

/-! ## Progress pattern extraction (ffmpeg loops)

`start_encode` (lib.rs:1076-1126) matches three regular expressions
against each record:
`Duration:\s*(\d{2}):(\d{2}):(\d{2})\.(\d{2})` (cached once),
`time=(\d{2}):(\d{2}):(\d{2})\.(\d{2})` (drives percent), and
`speed=\s*(\d+\.?\d*)x`.  Only capture groups 1-3 (hours, minutes, whole
seconds) of the two clock patterns are ever read; group 4 (centiseconds)
is matched but discarded.  The scanners below implement exactly these
concrete patterns with the regex crate's leftmost-match semantics. -/

/-- Numeric value of a decimal digit character. -/
def digitVal (c : Char) : Nat := c.toNat - '0'.toNat

/-- Match `(\d{2}):(\d{2}):(\d{2})\.(\d{2})` at the head of the input,
returning the four two-digit groups. -/
def matchClock : List Char → Option (Nat × Nat × Nat × Nat)
  | h1 :: h2 :: ':' :: m1 :: m2 :: ':' :: s1 :: s2 :: '.' :: f1 :: f2 :: _ =>
    if h1.isDigit && h2.isDigit && m1.isDigit && m2.isDigit &&
        s1.isDigit && s2.isDigit && f1.isDigit && f2.isDigit then
      some (10 * digitVal h1 + digitVal h2, 10 * digitVal m1 + digitVal m2,
            10 * digitVal s1 + digitVal s2, 10 * digitVal f1 + digitVal f2)
    else none
  | _ => none

/-- Consume a literal character sequence from the head of the input. -/
def dropLit : List Char → List Char → Option (List Char)
  | [], cs => some cs
  | l :: ls, c :: cs => if c == l then dropLit ls cs else none
  | _ :: _, [] => none

/-- Leftmost-match scan: try the pattern matcher at each successive start
position, exactly as `Regex::captures` finds the leftmost match.  (All
patterns used here need at least one character, so the end position is
irrelevant.) -/
def scanFor {α : Type} (f : List Char → Option α) : List Char → Option α
  | [] => none
  | c :: rest =>
    match f (c :: rest) with
    | some r => some r
    | none => scanFor f rest

/-- The `time=(\d{2}):(\d{2}):(\d{2})\.(\d{2})` extraction. -/
def findTime (cs : List Char) : Option (Nat × Nat × Nat × Nat) :=
  scanFor (fun l => (dropLit ("time=".data) l).bind matchClock) cs

/-- The `Duration:\s*(\d{2}):(\d{2}):(\d{2})\.(\d{2})` extraction (the
greedy `\s*` is deterministic here because whitespace and digits are
disjoint). -/
def findDuration (cs : List Char) : Option (Nat × Nat × Nat × Nat) :=
  scanFor
    (fun l => (dropLit ("Duration:".data) l).bind
      (fun r => matchClock (r.dropWhile isWs))) cs

/-- Match the `(\d+\.?\d*)x` tail of the speed pattern, returning the
captured characters.  Greedy matching without backtracking agrees with the
regex here: shortening `\d+` or `\d*` can never move the required literal
`x` onto a digit or a dot. -/
def matchSpeedNum (cs : List Char) : Option (List Char) :=
  let ds := cs.takeWhile Char.isDigit
  if ds.isEmpty then none
  else
    match cs.drop ds.length with
    | '.' :: rest2 =>
      let ds2 := rest2.takeWhile Char.isDigit
      match rest2.drop ds2.length with
      | 'x' :: _ => some (ds ++ '.' :: ds2)
      | _ => none
    | 'x' :: _ => some ds
    | _ => none

/-- The `speed=\s*(\d+\.?\d*)x` extraction. -/
def findSpeed (cs : List Char) : Option (List Char) :=
  scanFor
    (fun l => (dropLit ("speed=".data) l).bind
      (fun r => matchSpeedNum (r.dropWhile isWs))) cs

/-- The speed field of the emitted progress payload:
`format!("{}x", capture)`, or `"N/A"` when the pattern is absent
(lib.rs:1114-1118). -/
def speedStringOf (cs : List Char) : String :=
  match findSpeed cs with
  | some cap => String.mk cap ++ "x"
  | none => "N/A"

/-- Two-digit zero padding, Rust `format!("{:02}", n)` for `n ≤ 99`. -/
def pad2 (n : Nat) : String :=
  if n < 10 then "0" ++ toString n else toString n

/-- The `time` field of the progress payload:
`format!("{:02}:{:02}:{:02}", h, m, s)`. -/
def timeString (h m s : Nat) : String :=
  pad2 h ++ ":" ++ pad2 m ++ ":" ++ pad2 s

/-- One `encode-progress` payload (lib.rs:1120-1124). -/
structure EncodeProgress where
  percent : Nat
  time : String
  speed : String
deriving DecidableEq, Repr

/-- Percent computation of `start_encode` / `extract_audio`
(lib.rs:1109-1112): with a cached duration `dur > 0`,
`((current_time / dur * 100.0).min(99.0)).round() as u32`; otherwise 0.
`current_time` and the cached duration are whole-second values. -/
def percentOf (cur : Nat) : Option Nat → Nat
  | some dur =>
    if 0 < dur then (round (min ((cur : ℚ) / (dur : ℚ) * 100) 99)).toNat else 0
  | none => 0

/-- Percent computation of `trim_video` (lib.rs:1450-1454) and
`video_to_gif` (lib.rs:1719-1723), whose denominator is a fixed duration
computed before the loop. -/
def fixedDurPercent (dur : ℚ) (cur : Nat) : Nat :=
  if 0 < dur then (round (min ((cur : ℚ) / dur * 100) 99)).toNat else 0

/-- One iteration of the `start_encode` stderr loop body
(lib.rs:1086-1126): cache the duration on its first match (groups 1-3
only), then, on a `time=` match, emit a progress event computed from the
(possibly just-updated) cache.  The loop state is exactly the cached
duration. -/
def ffmpegStep (cache : Option Nat) (rec : String) :
    Option Nat × Option EncodeProgress :=
  let cs := rec.data
  let cache2 :=
    match cache with
    | some v => some v
    | none =>
      match findDuration cs with
      | some (h, m, s, _) => some (3600 * h + 60 * m + s)
      | none => none
  let ev :=
    match findTime cs with
    | some (h, m, s, _) =>
      some { percent := percentOf (3600 * h + 60 * m + s) cache2,
             time := timeString h m s, speed := speedStringOf cs }
    | none => none
  (cache2, ev)

/-- Run the `start_encode` progress loop over a record sequence, returning
the final duration cache and the emitted progress events in order. -/
def runFfmpeg (cache : Option Nat) : List String → Option Nat × List EncodeProgress
  | [] => (cache, [])
  | r :: rs =>
    let st := ffmpegStep cache r
    let rest := runFfmpeg st.1 rs
    (rest.1, st.2.toList ++ rest.2)

/-! ## Percent bounds and duration caching -/

theorem toNat_round_min_le (x : ℚ) : (round (min x 99)).toNat ≤ 99 := by
  have h1 : round (min x 99) ≤ round (99 : ℚ) := by
    rw [round_eq, round_eq]
    exact Int.floor_le_floor (by have := min_le_right x (99 : ℚ); linarith)
  rw [round_ofNat] at h1
  exact Int.toNat_le.mpr (by exact_mod_cast h1)

theorem percentOf_le (cur : Nat) (cache : Option Nat) : percentOf cur cache ≤ 99 := by
  cases cache with
  | none => simp [percentOf]
  | some dur =>
    simp only [percentOf]
    split
    · exact toNat_round_min_le _
    · omega

theorem fixedDurPercent_le (dur : ℚ) (cur : Nat) : fixedDurPercent dur cur ≤ 99 := by
  unfold fixedDurPercent
  split
  · exact toNat_round_min_le _
  · omega

theorem ffmpegStep_percent_le (cache : Option Nat) (r : String) :
    ∀ e ∈ (ffmpegStep cache r).2.toList, e.percent ≤ 99 := by
  intro e he
  simp only [ffmpegStep] at he
  cases h : findTime r.data with
  | none => rw [h] at he; simp at he
  | some t =>
    obtain ⟨h1, m1, s1, f1⟩ := t
    rw [h] at he
    simp at he
    rw [he]
    exact percentOf_le _ _

theorem runFfmpeg_percent_le : ∀ (recs : List String) (cache : Option Nat),
    ∀ e ∈ (runFfmpeg cache recs).2, e.percent ≤ 99 := by
  intro recs
  induction recs with
  | nil => intro cache e he; simp [runFfmpeg] at he
  | cons r rs ih =>
    intro cache e he
    simp only [runFfmpeg, List.mem_append] at he
    rcases he with he | he
    · exact ffmpegStep_percent_le cache r e he
    · exact ih _ e he

theorem runFfmpeg_cache_stable : ∀ (recs : List String) (v : Nat),
    (runFfmpeg (some v) recs).1 = some v := by
  intro recs
  induction recs with
  | nil => intro v; rfl
  | cons r rs ih =>
    intro v
    simp only [runFfmpeg]
    have hstep : (ffmpegStep (some v) r).1 = some v := rfl
    rw [hstep]
    exact ih v

/-- C6.  Every progress event produced by the ffmpeg progress loops
carries a percent in the integer interval `[0, 99]` (the values are
naturals, so only the upper bound is substantive): the raw percent
formulas of `start_encode`/`extract_audio` (`percentOf`) and of
`trim_video`/`video_to_gif` (`fixedDurPercent`) never exceed 99 for any
position and any cached duration — the clamp `.min(99.0)` is applied
before rounding — and hence every event emitted by a whole run of the
loop is so bounded. -/
theorem c6_percent_never_exceeds_99 :
    (∀ cur cache, percentOf cur cache ≤ 99) ∧
    (∀ dur cur, fixedDurPercent dur cur ≤ 99) ∧
    (∀ cache recs, ∀ e ∈ (runFfmpeg cache recs).2, e.percent ≤ 99) :=
  ⟨percentOf_le, fixedDurPercent_le, fun cache recs => runFfmpeg_percent_le recs cache⟩

/-- C6 witness: a concrete run emitting one event, whose percent the
theorem bounds. -/
theorem c6_witness :
    (({ percent := 0, time := "00:00:05", speed := "N/A" } : EncodeProgress) ∈
      (runFfmpeg none ["time=00:00:05.00"]).2) ∧
    ({ percent := 0, time := "00:00:05", speed := "N/A" } : EncodeProgress).percent ≤ 99 :=
  ⟨by decide, c6_percent_never_exceeds_99.2.2 none ["time=00:00:05.00"]
    { percent := 0, time := "00:00:05", speed := "N/A" } (by decide)⟩

/-- C8.  The total-duration pattern is captured at most once per stream:
once the cache holds `some v` it holds `some v` after any further
records, and a stream whose head record matches the duration pattern ends
with that first value cached no matter what the remaining records
contain. -/
theorem c8_duration_cached_once :
    (∀ recs v, (runFfmpeg (some v) recs).1 = some v) ∧
    (∀ (r : String) (rest : List String) (h m s f : Nat),
      findDuration r.data = some (h, m, s, f) →
      (runFfmpeg none (r :: rest)).1 = some (3600 * h + 60 * m + s)) := by
  refine ⟨fun recs v => runFfmpeg_cache_stable recs v, ?_⟩
  intro r rest h m s f hd
  simp only [runFfmpeg]
  have hstep : (ffmpegStep none r).1 = some (3600 * h + 60 * m + s) := by
    simp [ffmpegStep, hd]
  rw [hstep]
  exact runFfmpeg_cache_stable rest _

/-- C8 witness: a first duration match of 120 seconds stays cached even
when a later record matches a different duration (180 seconds). -/
theorem c8_witness :
    findDuration ("Duration: 00:02:00.00".data) = some (0, 2, 0, 0) ∧
    (runFfmpeg none ["Duration: 00:02:00.00", "Duration: 00:03:00.00"]).1 = some 120 :=
  ⟨by decide, c8_duration_cached_once.2 "Duration: 00:02:00.00"
    ["Duration: 00:03:00.00"] 0 2 0 0 (by decide)⟩

/-! ## Percent computation: whole seconds only -/

theorem round_mono_rat {a b : ℚ} (hab : a ≤ b) : round a ≤ round b := by
  rw [round_eq, round_eq]
  exact Int.floor_le_floor (by linarith)

/-- Clamping before rounding (what the code computes) agrees with rounding
before clamping (the spec's formula) on nonnegative inputs. -/
theorem round_clamp_comm (x : ℚ) (_hx : 0 ≤ x) :
    (round (min x 99)).toNat = min (round x).toNat 99 := by
  rcases le_total x 99 with h | h
  · rw [min_eq_left h]
    have hr : round x ≤ 99 := by
      have := round_mono_rat h
      rwa [round_ofNat] at this
    have h2 : (round x).toNat ≤ 99 := by omega
    rw [min_eq_left h2]
  · rw [min_eq_right h]
    rw [round_ofNat]
    have hr : (99 : ℤ) ≤ round x := by
      have := round_mono_rat h
      rwa [round_ofNat] at this
    have h2 : 99 ≤ (round x).toNat := by omega
    rw [min_eq_right h2]
    rfl

/-- C5, counterexample.  With a cached duration of 10 seconds, the record
`"time=00:00:09.99"` yields percent 90, not the claimed
`round(99.9) = 99`: the centisecond capture group of the position-time
pattern is matched but never read (lib.rs:1102-1105 use only capture
groups 1-3), so the fractional part does not participate in the percent
computation. -/
theorem c5_counterexample :
    (runFfmpeg (some 10) ["time=00:00:09.99"]).2 =
      [{ percent := 90, time := "00:00:09", speed := "N/A" }] ∧ (90 : Nat) ≠ 99 := by
  constructor
  · norm_num [runFfmpeg, ffmpegStep, speedStringOf, timeString, pad2, percentOf,
      show findTime ("time=00:00:09.99".data) = some (0, 0, 9, 99) from by decide,
      show findSpeed ("time=00:00:09.99".data) = none from by decide]
    exact ⟨rfl, by decide⟩
  · decide

/-- C5, amended.  Given a cached duration of 10 seconds, a position-time
match of 5 seconds yields percent 50; a match of `09.99` yields percent
90, the same as a match of `09.00`, because the fractional part of the
position time is discarded (only whole seconds enter the computation
`percent = round(min(seconds / duration * 100, 99))`).  Clamping before
rounding, as the code does, agrees with the spec's
round-then-clamp-to-`[0,99]` on the nonnegative inputs that occur. -/
theorem c5_amended :
    (runFfmpeg (some 10) ["time=00:00:05.00"]).2 =
      [{ percent := 50, time := "00:00:05", speed := "N/A" }] ∧
    (runFfmpeg (some 10) ["time=00:00:09.99"]).2 =
      [{ percent := 90, time := "00:00:09", speed := "N/A" }] ∧
    (runFfmpeg (some 10) ["time=00:00:09.00"]).2 =
      [{ percent := 90, time := "00:00:09", speed := "N/A" }] ∧
    (∀ x : ℚ, 0 ≤ x → (round (min x 99)).toNat = min (round x).toNat 99) := by
  refine ⟨?_, ?_, ?_, round_clamp_comm⟩
  · norm_num [runFfmpeg, ffmpegStep, speedStringOf, timeString, pad2, percentOf,
      show findTime ("time=00:00:05.00".data) = some (0, 0, 5, 0) from by decide,
      show findSpeed ("time=00:00:05.00".data) = none from by decide]
    exact ⟨rfl, by decide⟩
  · norm_num [runFfmpeg, ffmpegStep, speedStringOf, timeString, pad2, percentOf,
      show findTime ("time=00:00:09.99".data) = some (0, 0, 9, 99) from by decide,
      show findSpeed ("time=00:00:09.99".data) = none from by decide]
    exact ⟨rfl, by decide⟩
  · norm_num [runFfmpeg, ffmpegStep, speedStringOf, timeString, pad2, percentOf,
      show findTime ("time=00:00:09.00".data) = some (0, 0, 9, 0) from by decide,
      show findSpeed ("time=00:00:09.00".data) = none from by decide]
    exact ⟨rfl, by decide⟩

/-- C5 witness: the clamp/round-order conjunct of the amended claim
instantiated at the concrete value 90. -/
theorem c5_witness :
    (round (min (90 : ℚ) 99)).toNat = min (round (90 : ℚ)).toNat 99 :=
  c5_amended.2.2.2 90 (by norm_num)

/-! ## Completion traces

Each handler, after `child.wait()` returns, performs a fixed sequence of
slot-clearing, flag-clearing, terminal-event and file-deletion steps whose
order depends only on the observed cancellation flag, the exit status, and
(where the handler checks it) whether the recorded output file exists.
These sequences are modelled as action traces, in source order. -/

/-- A terminal outcome event: `*-cancelled`, `*-complete`, `*-error`. -/
inductive Terminal where
  | cancelled
  | complete
  | error
deriving DecidableEq, Repr

/-- An atomic step of a post-`wait` completion sequence. -/
inductive FinishAction where
  | clearPid
  | clearOutput
  | clearCancelFlag
  | emitTerminal (t : Terminal)
  | deleteOutput
deriving DecidableEq, Repr

/-- Post-`wait` sequence of `start_encode` (lib.rs:1134-1169): clear pid,
clear output path, then, if the cancellation flag is set, clear it, emit
`encode-cancelled` and delete the output file when it exists; otherwise
emit `encode-complete` or `encode-error` by exit status. -/
def encodeFinish (isCancelling success outputExists : Bool) : List FinishAction :=
  [.clearPid, .clearOutput] ++
    (if isCancelling then
      [.clearCancelFlag, .emitTerminal .cancelled] ++
        (if outputExists then [.deleteOutput] else [])
    else if success then [.emitTerminal .complete]
    else [.emitTerminal .error])

/-- Post-`wait` sequence of `extract_audio` (lib.rs:1338-1366): as
`start_encode`, but the cancelled branch performs no file deletion. -/
def extractAudioFinish (isCancelling success : Bool) : List FinishAction :=
  [.clearPid, .clearOutput] ++
    (if isCancelling then [.clearCancelFlag, .emitTerminal .cancelled]
    else if success then [.emitTerminal .complete]
    else [.emitTerminal .error])

/-- Post-`wait` sequence of `trim_video` (lib.rs:1469-1496): identical in
shape to `extract_audio`; no file deletion on the cancelled branch. -/
def trimFinish (isCancelling success : Bool) : List FinishAction :=
  [.clearPid, .clearOutput] ++
    (if isCancelling then [.clearCancelFlag, .emitTerminal .cancelled]
    else if success then [.emitTerminal .complete]
    else [.emitTerminal .error])

/-- Post-`wait` sequence of `video_to_gif` (lib.rs:1740-1768): clears pid
and output path, and on cancellation emits `encode-cancelled` and deletes
the output if present — but never resets the cancellation flag. -/
def gifFinish (isCancelling success outputExists : Bool) : List FinishAction :=
  [.clearPid, .clearOutput] ++
    (if isCancelling then
      [.emitTerminal .cancelled] ++ (if outputExists then [.deleteOutput] else [])
    else if success then [.emitTerminal .complete]
    else [.emitTerminal .error])

/-- Post-`wait` sequence of `download_video` (lib.rs:2556-2623): only the
pid slot is cleared (`download_video` tracks its output path in a local
`final_path`, not in the shared slot); the cancelled branch clears the
flag and emits `download-cancelled` without deleting any file. -/
def downloadFinish (isCancelling success : Bool) : List FinishAction :=
  [.clearPid] ++
    (if isCancelling then [.clearCancelFlag, .emitTerminal .cancelled]
    else if success then [.emitTerminal .complete]
    else [.emitTerminal .error])

def isEmitTerminal : FinishAction → Bool
  | .emitTerminal _ => true
  | _ => false

def isClearSlot : FinishAction → Bool
  | .clearPid => true
  | .clearOutput => true
  | _ => false

/-- Number of terminal outcome events in a trace. -/
def terminalCount (tr : List FinishAction) : Nat :=
  (tr.filter isEmitTerminal).length

/-- The terminal outcome a trace emits (the first one, if any). -/
def terminalOf (tr : List FinishAction) : Option Terminal :=
  tr.findSome? (fun a => match a with | .emitTerminal t => some t | _ => none)

/-- Value of the cancellation flag after a trace runs, given its value
when the trace was entered. -/
def flagAfter (flag : Bool) (tr : List FinishAction) : Bool :=
  if tr.contains .clearCancelFlag then false else flag

/-- Every slot-clearing action in the trace occurs strictly before every
terminal emission. -/
def clearsBeforeEmits (tr : List FinishAction) : Prop :=
  ∀ i : Fin tr.length, isEmitTerminal (tr.get i) = true →
    ∀ j : Fin tr.length, isClearSlot (tr.get j) = true → (j : Nat) < (i : Nat)

/-- Every slot-clearing action in the trace occurs strictly after every
terminal emission (the ordering C2 claims). -/
def clearsOnlyAfterEmit (tr : List FinishAction) : Prop :=
  ∀ j : Fin tr.length, isClearSlot (tr.get j) = true →
    ∀ i : Fin tr.length, isEmitTerminal (tr.get i) = true → (i : Nat) < (j : Nat)

instance (tr : List FinishAction) : Decidable (clearsBeforeEmits tr) := by
  unfold clearsBeforeEmits
  infer_instance

instance (tr : List FinishAction) : Decidable (clearsOnlyAfterEmit tr) := by
  unfold clearsOnlyAfterEmit
  infer_instance

/-- C2, counterexample.  In `start_encode`'s completion sequence for an
uncancelled successful run, the slot fields are cleared before
`encode-complete` is emitted, not after it. -/
theorem c2_counterexample :
    ¬ clearsOnlyAfterEmit (encodeFinish false true false) := by decide

/-- C2, amended.  Exactly one terminal outcome event is emitted per
completion sequence, but the active-job slot fields are cleared
immediately after process exit and hence strictly before the terminal
emission, never after it — in every handler. -/
theorem c2_amended :
    ∀ c s o : Bool,
      terminalCount (encodeFinish c s o) = 1 ∧ clearsBeforeEmits (encodeFinish c s o) ∧
      terminalCount (extractAudioFinish c s) = 1 ∧ clearsBeforeEmits (extractAudioFinish c s) ∧
      terminalCount (trimFinish c s) = 1 ∧ clearsBeforeEmits (trimFinish c s) ∧
      terminalCount (gifFinish c s o) = 1 ∧ clearsBeforeEmits (gifFinish c s o) ∧
      terminalCount (downloadFinish c s) = 1 ∧ clearsBeforeEmits (downloadFinish c s) := by
  decide

/-- C2 witness: the amended ordering at a concrete instance. -/
theorem c2_witness :
    terminalCount (encodeFinish false true false) = 1 ∧
    clearsBeforeEmits (encodeFinish false true false) :=
  ⟨(c2_amended false true false).1, (c2_amended false true false).2.1⟩

/-- C7, counterexample.  `video_to_gif` is a job run whose completion
path, observing the cancellation flag set, produces the Cancelled outcome
but never clears the flag: after its completion sequence the flag is
still set.  (The claim's conjunct "the flag is cleared" fails for this
job kind.) -/
theorem c7_counterexample :
    terminalOf (gifFinish true true false) = some .cancelled ∧
    flagAfter true (gifFinish true true false) = true := by decide

/-- C7, amended.  In every handler, a cancellation flag observed set at
process exit forces the Cancelled outcome regardless of exit status —
even a success exit yields Cancelled — and the flag is cleared by the
encode, audio-extraction, trim and download completion paths; the
GIF-conversion completion path alone leaves the flag set. -/
theorem c7_amended :
    ∀ success oe : Bool,
      terminalOf (encodeFinish true success oe) = some .cancelled ∧
      flagAfter true (encodeFinish true success oe) = false ∧
      terminalOf (extractAudioFinish true success) = some .cancelled ∧
      flagAfter true (extractAudioFinish true success) = false ∧
      terminalOf (trimFinish true success) = some .cancelled ∧
      flagAfter true (trimFinish true success) = false ∧
      terminalOf (downloadFinish true success) = some .cancelled ∧
      flagAfter true (downloadFinish true success) = false ∧
      terminalOf (gifFinish true success oe) = some .cancelled ∧
      flagAfter true (gifFinish true success oe) = true := by decide

/-- C7 witness: a success exit status with a pending cancellation still
resolves to Cancelled (and clears the flag) in `start_encode`. -/
theorem c7_witness :
    terminalOf (encodeFinish true true true) = some .cancelled ∧
    flagAfter true (encodeFinish true true true) = false :=
  ⟨(c7_amended true true).1, (c7_amended true true).2.1⟩

/-- C4, counterexample.  The completion paths of `extract_audio`,
`trim_video` and `download_video` never delete the recorded output file
on a Cancelled outcome (their traces contain no deletion step at all), so
the claim fails for the audio-extraction, trim and download job kinds. -/
theorem c4_counterexample :
    (FinishAction.deleteOutput ∉ extractAudioFinish true false) ∧
    (FinishAction.deleteOutput ∉ trimFinish true false) ∧
    (FinishAction.deleteOutput ∉ downloadFinish true false) := by decide

/-- C4, amended.  On a Cancelled outcome, only the `start_encode` and
`video_to_gif` completion paths delete the file at the recorded output
path when it exists (and skip the deletion when it does not); the
audio-extraction, trim and download completion paths never delete it. -/
theorem c4_amended :
    ∀ s : Bool,
      (FinishAction.deleteOutput ∈ encodeFinish true s true) ∧
      (FinishAction.deleteOutput ∈ gifFinish true s true) ∧
      (FinishAction.deleteOutput ∉ encodeFinish true s false) ∧
      (FinishAction.deleteOutput ∉ gifFinish true s false) ∧
      (FinishAction.deleteOutput ∉ extractAudioFinish true s) ∧
      (FinishAction.deleteOutput ∉ trimFinish true s) ∧
      (FinishAction.deleteOutput ∉ downloadFinish true s) := by decide

/-- C4 witness: the deletion/non-deletion pattern at a concrete exit
status. -/
theorem c4_witness :
    (FinishAction.deleteOutput ∈ encodeFinish true true true) ∧
    (FinishAction.deleteOutput ∉ extractAudioFinish true true) :=
  ⟨(c4_amended true).1, (c4_amended true).2.2.2.2.1⟩

/-! ## The cancel commands

`cancel_encode` (lib.rs:1499-1546) and `cancel_download` (lib.rs:2626-2658)
operate on the shared `AppState` slot.  The filesystem is the list of
existing paths; `std::fs::remove_file` removes the path.  Both commands
always return `Ok(())`, so the model is a total function. -/

/-- The shared active-job slot (`AppState`, lib.rs:344-347). -/
structure JobSlot where
  current_pid : Option Nat
  current_output_path : Option String
  is_cancelling : Bool
deriving DecidableEq, Repr

/-- An externally visible side effect of a cancel command. -/
inductive CancelAction where
  | killProcess (pid : Nat)
  | removeFile (path : String)
deriving DecidableEq, Repr

/-- `cancel_encode` (lib.rs:1499-1546): set the cancellation flag, kill
the recorded process if any, delete the file at the recorded output path
if it exists, then clear the pid (the output-path field is left as it
was).  Returns the new slot, the new filesystem, and the side-effect
actions performed, in order. -/
def cancelEncode (s : JobSlot) (fs : List String) :
    JobSlot × List String × List CancelAction :=
  let killActs :=
    match s.current_pid with
    | some pid => [CancelAction.killProcess pid]
    | none => []
  let del :=
    match s.current_output_path with
    | some p =>
      if p ∈ fs then (fs.filter (fun q => !(q == p)), [CancelAction.removeFile p])
      else (fs, [])
    | none => (fs, [])
  (⟨none, s.current_output_path, true⟩, del.1, killActs ++ del.2)

/-- `cancel_download` (lib.rs:2626-2658): set the cancellation flag, kill
the recorded process if any, clear the pid.  No file deletion. -/
def cancelDownload (s : JobSlot) : JobSlot × List CancelAction :=
  let killActs :=
    match s.current_pid with
    | some pid => [CancelAction.killProcess pid]
    | none => []
  (⟨none, s.current_output_path, true⟩, killActs)

/-- C3, counterexample.  A cancel request issued when no job is active is
not a no-op on observable state: it sets the persistent cancellation
flag, and that flag makes the next job that exits resolve to Cancelled
even on a success exit status. -/
theorem c3_counterexample :
    (cancelEncode ⟨none, none, false⟩ []).1 ≠ (⟨none, none, false⟩ : JobSlot) ∧
    terminalOf (encodeFinish true true false) = some .cancelled := by decide

/-- C3, amended.  A cancel request with no active job returns without
error and performs no Terminator call and no file deletion, but it does
set the cancellation flag, which persists and causes the next job that
exits to resolve as Cancelled rather than Succeeded.  Calling cancel
twice in immediate succession is safe and performs no duplicate side
effects: after any first call, a second call changes neither the slot nor
the filesystem and performs no side-effect action at all (the first call
cleared the pid, so not even a repeated Terminator call occurs). -/
theorem c3_amended :
    (∀ fs : List String,
      cancelEncode ⟨none, none, false⟩ fs = (⟨none, none, true⟩, fs, [])) ∧
    (∀ (s : JobSlot) (fs : List String),
      cancelEncode (cancelEncode s fs).1 (cancelEncode s fs).2.1 =
        ((cancelEncode s fs).1, (cancelEncode s fs).2.1, [])) ∧
    (∀ s : JobSlot, cancelDownload (cancelDownload s).1 = ((cancelDownload s).1, [])) ∧
    terminalOf (encodeFinish true true false) = some Terminal.cancelled := by
  refine ⟨fun fs => rfl, ?_, fun s => rfl, by decide⟩
  intro s fs
  obtain ⟨pid, path, flag⟩ := s
  cases path with
  | none => rfl
  | some p =>
    simp only [cancelEncode]
    by_cases hp : p ∈ fs
    · rw [if_pos hp]
      have hnot : ¬ (p ∈ fs.filter (fun q => !(q == p))) := by
        simp [List.mem_filter]
      simp [hnot]
    · rw [if_neg hp]
      simp [hp]

/-- C3 witness: cancelling with an inactive slot at a concrete filesystem,
via the amended theorem. -/
theorem c3_witness :
    cancelEncode ⟨none, none, false⟩ ["out.mp4"] = (⟨none, none, true⟩, ["out.mp4"], []) :=
  c3_amended.1 ["out.mp4"]

/-! ## Diagnostic buffer (download stderr log) -/

/-- The byte cap of the stderr accumulation (`16_384`, lib.rs:2460). -/
def diagCap : Nat := 16384

/-- One stderr record's effect on the diagnostic buffer
(lib.rs:2453-2464): empty records are skipped earlier in the loop; a
non-empty record plus a newline is appended only while the accumulated
length is still below the cap.  (`String.len` counts bytes; the model
counts characters, which agrees on the ASCII diagnostics at issue and is
immaterial to the append/evict policy.) -/
def diagStep (acc : String) (err : String) : String :=
  if err = "" then acc
  else if acc.length < diagCap then acc ++ err ++ "\n" else acc

theorem diagStep_stops_at_cap (acc err : String) (h : diagCap ≤ acc.length) :
    diagStep acc err = acc := by
  unfold diagStep
  split
  · rfl
  · rw [if_neg (by omega)]

theorem diagStep_prefix (acc err : String) : ∃ t, diagStep acc err = acc ++ t := by
  unfold diagStep
  split
  · exact ⟨"", by simp⟩
  · split
    · exact ⟨err ++ "\n", by simp [String.append_assoc]⟩
    · exact ⟨"", by simp⟩

theorem diagFold_prefix (errs : List String) :
    ∀ acc, ∃ t, List.foldl diagStep acc errs = acc ++ t := by
  induction errs with
  | nil => intro acc; exact ⟨"", by simp⟩
  | cons e es ih =>
    intro acc
    obtain ⟨u, hu⟩ := diagStep_prefix acc e
    obtain ⟨v, hv⟩ := ih (diagStep acc e)
    exact ⟨u ++ v, by rw [List.foldl_cons, hv, hu, String.append_assoc]⟩

theorem diagFold_bounded (L : Nat) (errs : List String)
    (hL : ∀ e ∈ errs, e.length ≤ L) :
    ∀ acc, (List.foldl diagStep acc errs).length ≤ max acc.length (diagCap + L) := by
  induction errs with
  | nil => intro acc; simp
  | cons e es ih =>
    intro acc
    have he : e.length ≤ L := hL e (by simp)
    have hL2 : ∀ x ∈ es, x.length ≤ L := fun x hx => hL x (by simp [hx])
    have step : (diagStep acc e).length ≤ max acc.length (diagCap + L) := by
      unfold diagStep
      split
      · exact le_max_left _ _
      · split
        · have : (acc ++ e ++ "\n").length = acc.length + e.length + 1 := by
            simp [String.length_append, show ("\n" : String).length = 1 from rfl]
          omega
        · exact le_max_left _ _
    calc (List.foldl diagStep acc (e :: es)).length
        = (List.foldl diagStep (diagStep acc e) es).length := by rw [List.foldl_cons]
      _ ≤ max (diagStep acc e).length (diagCap + L) := ih hL2 (diagStep acc e)
      _ ≤ max (max acc.length (diagCap + L)) (diagCap + L) := by
          exact max_le_max step (le_refl _)
      _ = max acc.length (diagCap + L) := by omega

/-- C9.  The stderr diagnostic buffer of `download_video` follows an
oldest-write-wins policy with a cap of 16384 bytes: once the accumulated
length has reached the cap, further records are not appended; previously
captured content is never evicted (the buffer after any record sequence
is an extension of the buffer before); and the final length is bounded by
the cap plus one record (records of length at most `L`, each appended
with one newline, can overshoot the 16384 threshold at most once). -/
theorem c9_diag_buffer_policy :
    (∀ acc err, diagCap ≤ acc.length → diagStep acc err = acc) ∧
    (∀ (errs : List String) (acc : String),
      ∃ t, List.foldl diagStep acc errs = acc ++ t) ∧
    (∀ (L : Nat) (errs : List String), (∀ e ∈ errs, e.length ≤ L) →
      ∀ acc, (List.foldl diagStep acc errs).length ≤ max acc.length (diagCap + L)) :=
  ⟨diagStep_stops_at_cap, diagFold_prefix, diagFold_bounded⟩

/-- C9 witness: at the cap, a further record is ignored; below the cap,
content is appended and the bound holds. -/
theorem c9_witness :
    diagStep (String.mk (List.replicate diagCap 'a')) "late" =
      String.mk (List.replicate diagCap 'a') ∧
    (∃ t, List.foldl diagStep "seed" ["err1"] = "seed" ++ t) ∧
    (List.foldl diagStep "" ["err1"]).length ≤ max ("" : String).length (diagCap + 4) := by
  refine ⟨c9_diag_buffer_policy.1 _ "late" ?_, c9_diag_buffer_policy.2.1 ["err1"] "seed",
    c9_diag_buffer_policy.2.2 4 ["err1"] ?_ ""⟩
  · show diagCap ≤ (List.replicate diagCap 'a').length
    rw [List.length_replicate]
  · intro e he
    simp at he
    subst he
    decide

/-! ## Trim range clamping (`trim_video`)

`trim_video` computes (lib.rs:1376-1378, in `f64` arithmetic)
`start = options.start_seconds.max(0.0)`,
`end = options.end_seconds.max(start + 1.0)`, `duration = end - start`.
The two `max` operations and the comparison are exact on binary64
values, but the addition `start + 1.0` and the subtraction `end - start`
are rounded.  Binary64 values are modelled by their exact rational
values; `IsF64` is the set of such values (significand below `2^53`;
the exponent range of binary64 is not bounded here, which only enlarges
the representable set and so weakens nothing that is proved about it),
and a rounded operation is modelled by the relation `RoundNearest`:
the result is a representable value at minimal distance from the exact
result.  IEEE 754 round-to-nearest-even always returns such a value
(the tie-breaking choice is left nondeterministic; at the tie exhibited
below, ties-to-even selects exactly the value used). -/

/-- The rational values representable as binary64 floats: an integer
significand of magnitude below `2^53` times a power of two. -/
def IsF64 (q : ℚ) : Prop :=
  ∃ (m e : ℤ), |m| < 2 ^ 53 ∧ q = (m : ℚ) * (2 : ℚ) ^ e

/-- Correctly rounded (round-to-nearest) binary64 result of the exact
value `x`: a representable value minimizing the distance to `x`. -/
def RoundNearest (x r : ℚ) : Prop :=
  IsF64 r ∧ ∀ y, IsF64 y → |x - r| ≤ |x - y|

theorem roundNearest_refl {x : ℚ} (hx : IsF64 x) : RoundNearest x x :=
  ⟨hx, fun y _ => by simp [abs_nonneg]⟩

/-- A representable exact value is returned unchanged by any nearest
rounding. -/
theorem roundNearest_exact {x r : ℚ} (hx : IsF64 x) (h : RoundNearest x r) : r = x := by
  have h0 := h.2 x hx
  simp only [sub_self, abs_zero] at h0
  have h1 : |x - r| = 0 := le_antisymm h0 (abs_nonneg _)
  have h2 : x - r = 0 := abs_eq_zero.mp h1
  linarith

/-- No binary64 value lies strictly within distance 1 of `2^53 + 1`:
values with nonpositive exponent are below `2^53` in magnitude, and
values with positive exponent are even integers, while `2^53 + 1` is
odd. -/
theorem no_f64_within_one_of_pow53_succ :
    ∀ y : ℚ, IsF64 y → 1 ≤ |(2 ^ 53 + 1 : ℚ) - y| := by
  rintro y ⟨m, e, hm, rfl⟩
  rcases le_or_lt e 0 with he | he
  · have h2e : (2 : ℚ) ^ e ≤ 1 := zpow_le_one_of_nonpos₀ (by norm_num) he
    have h2e0 : (0 : ℚ) < (2 : ℚ) ^ e := zpow_pos (by norm_num) e
    have hmq : |(m : ℚ)| < 2 ^ 53 := by
      rw [← Int.cast_abs]
      exact_mod_cast hm
    have habs : |(m : ℚ) * (2 : ℚ) ^ e| < 2 ^ 53 := by
      rw [abs_mul, abs_of_pos h2e0]
      calc |(m : ℚ)| * (2 : ℚ) ^ e ≤ |(m : ℚ)| * 1 :=
            mul_le_mul_of_nonneg_left h2e (abs_nonneg _)
        _ = |(m : ℚ)| := mul_one _
        _ < 2 ^ 53 := hmq
    have hy : (m : ℚ) * (2 : ℚ) ^ e < 2 ^ 53 :=
      lt_of_le_of_lt (le_abs_self _) habs
    rw [abs_of_pos (by linarith)]
    linarith
  · set n : ℤ := m * 2 ^ (e - 1).toNat with hn
    have hy : (m : ℚ) * (2 : ℚ) ^ e = ((2 * n : ℤ) : ℚ) := by
      have he1 : e = 1 + (e - 1) := by ring
      have hz : (2 : ℚ) ^ e = 2 * (2 : ℚ) ^ (e - 1) := by
        rw [he1, zpow_one_add₀ (by norm_num : (2 : ℚ) ≠ 0)]
        ring_nf
      have hnat : (2 : ℚ) ^ (e - 1) = (2 : ℚ) ^ (e - 1).toNat := by
        rw [← zpow_natCast, Int.toNat_of_nonneg (by omega)]
      push_cast [hn]
      rw [hz, hnat]
      ring
    set z : ℤ := 2 ^ 53 + 1 - 2 * n with hzdef
    have hz0 : z ≠ 0 := by omega
    have h1z : (1 : ℤ) ≤ |z| := Int.one_le_abs hz0
    have hcast : ((2 ^ 53 + 1 : ℚ)) - (m : ℚ) * (2 : ℚ) ^ e = ((z : ℤ) : ℚ) := by
      rw [hy, hzdef]
      push_cast
      ring
    rw [hcast, ← Int.cast_abs]
    exact_mod_cast h1z

theorem isF64_pow53 : IsF64 ((2 : ℚ) ^ 53) := by
  refine ⟨2 ^ 52, 1, by norm_num, ?_⟩
  rw [zpow_one]
  push_cast
  ring

/-- `2^53 + 1` ties between the neighbours `2^53` and `2^53 + 2`;
round-to-nearest-even returns `2^53` (even significand `2^52`), and
`2^53` indeed minimizes the distance, so the program's result is a
`RoundNearest` result. -/
theorem roundNearest_pow53_succ : RoundNearest ((2 : ℚ) ^ 53 + 1) ((2 : ℚ) ^ 53) := by
  refine ⟨isF64_pow53, ?_⟩
  intro y hy
  have h := no_f64_within_one_of_pow53_succ y hy
  have heq : |(2 ^ 53 + 1 : ℚ) - 2 ^ 53| = 1 := by norm_num
  rw [heq]
  exact h

/-- The numeric fields of `TrimVideoOptions` (lib.rs:228-234), carried as
the exact rational values of the binary64 inputs. -/
structure TrimVideoOptions where
  start_seconds : ℚ
  end_seconds : ℚ
deriving DecidableEq, Repr

/-- `let start = options.start_seconds.max(0.0)` (lib.rs:1376); `max` of
binary64 values is exact. -/
def trimStart (o : TrimVideoOptions) : ℚ := max o.start_seconds 0

/-- The effective duration of `trim_video` (lib.rs:1376-1378) under
binary64 arithmetic: `d` is a correctly rounded result of
`options.end_seconds.max(start + 1.0) - start`, where the inner sum
`start + 1.0` is itself correctly rounded and the field values are
binary64 inputs. -/
def TrimDuration64 (o : TrimVideoOptions) (d : ℚ) : Prop :=
  IsF64 o.start_seconds ∧ IsF64 o.end_seconds ∧
  ∃ s1, RoundNearest (trimStart o + 1) s1 ∧
    RoundNearest (max o.end_seconds s1 - trimStart o) d

/-- C10, counterexample.  At `start_seconds = 2^53` (a representable,
JSON-expressible input) and `end_seconds = 0`, the addition
`start + 1.0` absorbs: it rounds back to `2^53`, so
`end = max(0, 2^53) = 2^53` and `duration = 0` — not at least 1 — and
the duration-nonpositive fallback branch of the progress loop
(lib.rs:1450-1454) is taken, yielding `percent = 0`. -/
theorem c10_counterexample :
    TrimDuration64 ⟨(2 : ℚ) ^ 53, 0⟩ 0 ∧ ¬ (1 ≤ (0 : ℚ)) ∧ fixedDurPercent 0 5 = 0 := by
  have hs : trimStart ⟨(2 : ℚ) ^ 53, 0⟩ = (2 : ℚ) ^ 53 := max_eq_left (by positivity)
  have hf0 : IsF64 (0 : ℚ) := ⟨0, 0, by norm_num, by simp⟩
  refine ⟨⟨isF64_pow53, hf0, (2 : ℚ) ^ 53, ?_, ?_⟩, by norm_num, by simp [fixedDurPercent]⟩
  · rw [hs]
    exact roundNearest_pow53_succ
  · rw [hs]
    have hm : max (0 : ℚ) ((2 : ℚ) ^ 53) = (2 : ℚ) ^ 53 := max_eq_right (by positivity)
    rw [hm, sub_self]
    exact roundNearest_refl hf0

/-- C10, amended.  For every `TrimVideoOptions` input at which the two
rounded operations of the clamp are exact — `start + 1.0` and
`end - start` land on representable values, as they do for all inputs of
ordinary magnitude, including `end_seconds < start_seconds` and negative
fields — the effective duration is at least 1, so the
duration-nonpositive fallback branch (`percent = 0`) is not taken and
the percent comes from the main formula; when the addition absorbs
(`|start| ≥ 2^53`) the guarantee fails, as in the counterexample. -/
theorem c10_amended :
    ∀ (o : TrimVideoOptions) (d : ℚ) (cur : Nat),
      TrimDuration64 o d →
      IsF64 (trimStart o + 1) →
      IsF64 (max o.end_seconds (trimStart o + 1) - trimStart o) →
      1 ≤ d ∧
      fixedDurPercent d cur = (round (min ((cur : ℚ) / d * 100) 99)).toNat := by
  rintro o d cur ⟨hs, he, s1, h1, h2⟩ hx1 hx2
  have hs1 : s1 = trimStart o + 1 := roundNearest_exact hx1 h1
  subst hs1
  have hd : d = max o.end_seconds (trimStart o + 1) - trimStart o :=
    roundNearest_exact hx2 h2
  have hge : trimStart o + 1 ≤ max o.end_seconds (trimStart o + 1) := le_max_right _ _
  have h1d : 1 ≤ d := by rw [hd]; linarith
  refine ⟨h1d, ?_⟩
  unfold fixedDurPercent
  rw [if_pos (by linarith)]

/-- C10 witness: a degenerate request (`start_seconds = -5`,
`end_seconds = -10`, both bounds negative and the end before the start)
at which both rounded operations are exact: the duration is 1 and the
main percent branch is taken. -/
theorem c10_witness :
    1 ≤ (1 : ℚ) ∧
    fixedDurPercent 1 0 = (round (min ((0 : ℚ) / 1 * 100) 99)).toNat := by
  have hstart : trimStart ⟨-5, -10⟩ = 0 := max_eq_right (by norm_num)
  have hIs1 : IsF64 (1 : ℚ) := ⟨1, 0, by norm_num, by simp⟩
  have hmax : max (-10 : ℚ) (0 + 1) = 0 + 1 := max_eq_right (by norm_num)
  have hdur : TrimDuration64 ⟨-5, -10⟩ 1 := by
    refine ⟨⟨-5, 0, by norm_num, by simp⟩, ⟨-10, 0, by norm_num, by simp⟩, 0 + 1, ?_, ?_⟩
    · rw [hstart]
      exact roundNearest_refl (by rw [zero_add]; exact hIs1)
    · rw [hstart, hmax]
      have h01 : (0 : ℚ) + 1 - 0 = 1 := by norm_num
      rw [h01]
      exact roundNearest_refl hIs1
  have hx1 : IsF64 (trimStart ⟨-5, -10⟩ + 1) := by rw [hstart, zero_add]; exact hIs1
  have hx2 : IsF64 (max (-10 : ℚ) (trimStart ⟨-5, -10⟩ + 1) - trimStart ⟨-5, -10⟩) := by
    rw [hstart, hmax]
    simpa using hIs1
  simpa using c10_amended ⟨-5, -10⟩ 1 0 hdur hx1 hx2

/-- C1 witness: the delimiter-interchange conjunct of the amended claim
at a concrete stream containing both delimiters. -/
theorem c1_witness :
    downloadRecords (("a\n123\rtail".data).map swapNLtoCR) =
      downloadRecords ("a\n123\rtail".data) :=
  c1_amended.1 ("a\n123\rtail".data)
